import Mathlib

/-!
Verification development for the pipeline execution engine
(`engine/pipelines/exec.py`, `engine/pipelines/query_send.py`,
`engine/model_picker.py`, `engine/waiter.py`).

The Python code is shallowly embedded: Python values flowing through the
engine are modelled by the inductive `JValue` (numbers are modelled as
integers; no claim under consideration exercises float-specific
behaviour), Python `dict`s by association lists with first-key-wins
lookup and in-place update, raised-and-propagated exceptions by
`Except`, and caught exceptions by `Option`.
-/

namespace Oai

/-- Model of a Python value as it appears in the engine: JSON-like data
plus the booleans/strings/numbers the pipeline context holds.  Python
`None` is `JValue.null`.  Numbers are modelled as integers. -/
inductive JValue where
  | null : JValue
  | bool : Bool → JValue
  | num : Int → JValue
  | str : String → JValue
  | arr : List JValue → JValue
  | obj : List (String × JValue) → JValue

/-- The execution context (`PipelineExecutor.context`): a Python dict
from string keys to values, modelled as an insertion-ordered
association list with unique keys maintained by `ctxInsert`. -/
def Ctx : Type := List (String × JValue)

/-- Python dict lookup (`d[k]` / `k in d`): first matching key. -/
def getKey : List (String × JValue) → String → Option JValue
  | [], _ => none
  | (k, v) :: rest, key => if k = key then some v else getKey rest key

/-- Python dict assignment `d[k] = v`: replace the value in place if the
key exists, keeping its position, else append the new pair. -/
def ctxInsert : List (String × JValue) → String → JValue → List (String × JValue)
  | [], key, v => [(key, v)]
  | (k, w) :: rest, key, v =>
    if k = key then (key, v) :: rest else (k, w) :: ctxInsert rest key v

/-- Python `str.split(sep)` for a one-character separator: always
returns at least one (possibly empty) piece. -/
def splitOnChar (c : Char) : List Char → List (List Char)
  | [] => [[]]
  | x :: xs =>
    match splitOnChar c xs with
    | [] => if x = c then [[], []] else [[x]]
    | y :: ys => if x = c then [] :: y :: ys else (x :: y) :: ys

/-- Dot-path traversal over keys (`PipelineExecutor._lookup_path` body):
walk the key list; any step on a non-dict value or a missing key yields
`none` (the Python function returns `None`). -/
def lookupKeys : JValue → List String → Option JValue
  | v, [] => some v
  | JValue.obj fs, k :: ks =>
    match getKey fs k with
    | some v => lookupKeys v ks
    | none => none
  | _, _ :: _ => none

/-- `PipelineExecutor._lookup_path(data, path)`: split the path on dots
and traverse.  Never raises: a missing key or a traversal through a
non-mapping yields `none`. -/
def lookupPath (data : JValue) (path : String) : Option JValue :=
  lookupKeys data ((splitOnChar '.' path.data).map (fun l => String.mk l))

/-- One apostrophe character, used by the Python `repr` rendering of
strings inside lists and dicts. -/
def quoteCh : String := String.mk [Char.ofNat 39]

mutual

/-- Python `repr(value)` for the values the engine handles: ints print
bare, `True` and `False` and `None` by name, strings quoted, lists in
square brackets, dicts in braces. -/
def pyRepr : JValue → String
  | JValue.null => "None"
  | JValue.bool true => "True"
  | JValue.bool false => "False"
  | JValue.num n => toString n
  | JValue.str s => quoteCh ++ s ++ quoteCh
  | JValue.arr xs => "[" ++ pyReprList xs ++ "]"
  | JValue.obj fs => "\x7b" ++ pyReprFields fs ++ "\x7d"

/-- Comma-joined `repr` of list elements. -/
def pyReprList : List JValue → String
  | [] => ""
  | [x] => pyRepr x
  | x :: y :: rest => pyRepr x ++ ", " ++ pyReprList (y :: rest)

/-- Comma-joined `repr` of dict entries. -/
def pyReprFields : List (String × JValue) → String
  | [] => ""
  | [(k, v)] => quoteCh ++ k ++ quoteCh ++ ": " ++ pyRepr v
  | (k, v) :: f :: rest =>
    quoteCh ++ k ++ quoteCh ++ ": " ++ pyRepr v ++ ", " ++ pyReprFields (f :: rest)

end

/-- Python `str(value)`: identical to `repr` except that a string
renders as itself, unquoted. -/
def pyStr : JValue → String
  | JValue.str s => s
  | v => pyRepr v

/-- Python treats `bool` as an `int` subtype in arithmetic and
comparisons: `True` counts as 1, `False` as 0. -/
def boolInt (b : Bool) : Int := if b then 1 else 0

/-- Python `s.lower()`, character by character (ASCII, which covers
every status and keyword the engine lowercases). -/
def pyLower (s : String) : String := String.mk (s.data.map Char.toLower)

mutual

/-- Python `==` on engine values: total, never raises.  Numbers and
booleans compare across kinds (`True == 1`); values of otherwise
different kinds are unequal.  Dict equality is modelled as
field-by-field equality in order; Python's dict equality ignores entry
order, a difference no claim under study exercises. -/
def jEq : JValue → JValue → Bool
  | JValue.null, JValue.null => true
  | JValue.bool a, JValue.bool b => a == b
  | JValue.bool a, JValue.num m => boolInt a == m
  | JValue.num n, JValue.bool b => n == boolInt b
  | JValue.num n, JValue.num m => n == m
  | JValue.str a, JValue.str b => a == b
  | JValue.arr xs, JValue.arr ys => jEqList xs ys
  | JValue.obj fs, JValue.obj gs => jEqFields fs gs
  | _, _ => false

/-- Python `==` on lists: pointwise. -/
def jEqList : List JValue → List JValue → Bool
  | [], [] => true
  | x :: xs, y :: ys => jEq x y && jEqList xs ys
  | _, _ => false

/-- Ordered field-by-field dict equality (see `jEq`). -/
def jEqFields : List (String × JValue) → List (String × JValue) → Bool
  | [], [] => true
  | (k, v) :: fs, (l, w) :: gs => k == l && jEq v w && jEqFields fs gs
  | _, _ => false

end

mutual

/-- Python rich comparison (`<` and `>`) on engine values: `none`
models a `TypeError`.  Numbers and booleans are mutually comparable,
strings compare with strings, lists compare lexicographically; `None`
and dicts (and any mixed pair) raise. -/
def pyCompare : JValue → JValue → Option Ordering
  | JValue.num n, JValue.num m => some (compare n m)
  | JValue.num n, JValue.bool b => some (compare n (boolInt b))
  | JValue.bool a, JValue.num m => some (compare (boolInt a) m)
  | JValue.bool a, JValue.bool b => some (compare (boolInt a) (boolInt b))
  | JValue.str a, JValue.str b => some (compare a b)
  | JValue.arr xs, JValue.arr ys => pyCompareList xs ys
  | _, _ => none

/-- Python list comparison: step over `==`-equal heads, compare the
first unequal pair, shorter list is smaller. -/
def pyCompareList : List JValue → List JValue → Option Ordering
  | [], [] => some Ordering.eq
  | [], _ :: _ => some Ordering.lt
  | _ :: _, [] => some Ordering.gt
  | x :: xs, y :: ys => if jEq x y then pyCompareList xs ys else pyCompare x y

end

/-- Python `is` on engine values, modelled per the design notes:
identity coincides with equality on the interned scalars (`None`,
booleans, small ints) and is taken as false on freshly built compound
values (strings, lists, dicts), which are distinct objects. -/
def pyIs : JValue → JValue → Bool
  | JValue.null, JValue.null => true
  | JValue.bool a, JValue.bool b => a == b
  | JValue.num n, JValue.num m => n == m
  | _, _ => false

/-- Whether `needle` is a leading run of `hay`. -/
def isPrefixCh : List Char → List Char → Bool
  | [], _ => true
  | _ :: _, [] => false
  | a :: as, b :: bs => a == b && isPrefixCh as bs

/-- Whether `needle` occurs contiguously anywhere in `hay` (Python
substring membership `needle in hay`). -/
def isInfixCh (needle : List Char) : List Char → Bool
  | [] => isPrefixCh needle []
  | c :: rest => isPrefixCh needle (c :: rest) || isInfixCh needle rest

/-- Python `b in a`: substring test on strings, `==`-membership on
lists, key membership on dicts; `none` models a `TypeError` (membership
in a non-container, a non-string needle in a string, or an unhashable
needle against a dict). -/
def pyContains : JValue → JValue → Option Bool
  | JValue.str s, JValue.str t => some (isInfixCh t.data s.data)
  | JValue.str _, _ => none
  | JValue.arr xs, b => some (xs.any (fun x => jEq x b))
  | JValue.obj fs, JValue.str k => some (fs.any (fun kv => kv.1 == k))
  | JValue.obj _, JValue.arr _ => none
  | JValue.obj _, JValue.obj _ => none
  | JValue.obj _, _ => some false
  | _, _ => none

/-- The six condition operators of the `ops` table in
`PipelineExecutor._evaluate_single_condition`. -/
inductive Op where
  | gt : Op
  | lt : Op
  | eq : Op
  | is : Op
  | isNot : Op
  | contains : Op
deriving DecidableEq

/-- One application `op_func(a, b)` from the `ops` table; `none` models
a raised `TypeError`. -/
def applyOp : Op → JValue → JValue → Option Bool
  | Op.gt, a, b => (pyCompare a b).map (fun o => o == Ordering.gt)
  | Op.lt, a, b => (pyCompare a b).map (fun o => o == Ordering.lt)
  | Op.eq, a, b => some (jEq a b)
  | Op.is, a, b => some (pyIs a b)
  | Op.isNot, a, b => some (!pyIs a b)
  | Op.contains, a, b => pyContains a b

/-- The `try`/`except TypeError` around the operator application: try
the operands as they are; on a `TypeError` retry on `str(a)` and
`str(b)`.  A failure of the retried application is not caught by the
code and would propagate, modelled by `Except.error`. -/
def applyOpStrRetry (op : Op) (a b : JValue) : Except Unit Bool :=
  match applyOp op a b with
  | some r => Except.ok r
  | none =>
    match applyOp op (JValue.str (pyStr a)) (JValue.str (pyStr b)) with
    | some r => Except.ok r
    | none => Except.error ()

/-- A pipeline condition (`Condition` in `pipelines/models.py`):
attribute path `a`, operator, literal `b`, and nested `and` / `or`
clause lists.  The pydantic fields are optional lists; the code only
ever tests their truthiness, under which `None` and `[]` coincide, so
both are modelled as `[]`. -/
inductive Condition where
  | mk : String → Op → JValue → List Condition → List Condition → Condition

/-- Attribute path of a condition. -/
def Condition.attr : Condition → String
  | Condition.mk a _ _ _ _ => a

/-- Operator of a condition. -/
def Condition.oper : Condition → Op
  | Condition.mk _ op _ _ _ => op

/-- Literal operand of a condition. -/
def Condition.lit : Condition → JValue
  | Condition.mk _ _ b _ _ => b

/-- Nested `and` clauses of a condition. -/
def Condition.andList : Condition → List Condition
  | Condition.mk _ _ _ ands _ => ands

/-- Nested `or` clauses of a condition. -/
def Condition.orList : Condition → List Condition
  | Condition.mk _ _ _ _ ors => ors

mutual

/-- `PipelineExecutor._evaluate_single_condition`: resolve operand A by
dot-path lookup in the context (a miss gives base result false), apply
the operator with the stringifying retry, then: base true with a
non-empty `and` list gives the conjunction of the nested clauses; base
false with a non-empty `or` list gives the disjunction; otherwise the
base result stands.  `Except.error` models an exception escaping to the
caller (shown unreachable in `evalSingle_total`). -/
def evalSingle (ctx : Ctx) : Condition → Except Unit Bool
  | Condition.mk a op b ands ors =>
    match (match lookupPath (JValue.obj ctx) a with
           | none => Except.ok false
           | some va => applyOpStrRetry op va b) with
    | Except.error e => Except.error e
    | Except.ok base =>
      if base then
        if ands.isEmpty then Except.ok base else evalAll ctx ands
      else
        if ors.isEmpty then Except.ok base else evalAny ctx ors

/-- Conjunction of condition evaluations (`all(...)` over the gathered
results); an exception in any branch propagates. -/
def evalAll (ctx : Ctx) : List Condition → Except Unit Bool
  | [] => Except.ok true
  | c :: cs =>
    match evalSingle ctx c with
    | Except.error e => Except.error e
    | Except.ok r =>
      match evalAll ctx cs with
      | Except.error e => Except.error e
      | Except.ok rs => Except.ok (r && rs)

/-- Disjunction of condition evaluations (`any(...)` over the gathered
results); an exception in any branch propagates. -/
def evalAny (ctx : Ctx) : List Condition → Except Unit Bool
  | [] => Except.ok false
  | c :: cs =>
    match evalSingle ctx c with
    | Except.error e => Except.error e
    | Except.ok r =>
      match evalAny ctx cs with
      | Except.error e => Except.error e
      | Except.ok rs => Except.ok (r || rs)

end

/-- `PipelineExecutor._evaluate_conditions`: an absent or empty list
means the step always runs; otherwise the top-level conditions are
implicitly conjoined. -/
def evalConditions (ctx : Ctx) (conds : Option (List Condition)) : Except Unit Bool :=
  match conds with
  | none => Except.ok true
  | some [] => Except.ok true
  | some cs => evalAll ctx cs

/-- Target type of an extraction rule (`Literal["string", "number",
"boolean"]`). -/
inductive CastType where
  | string : CastType
  | number : CastType
  | boolean : CastType
deriving DecidableEq

/-- An extraction rule (`ExtractRule` in `pipelines/models.py`). -/
structure ExtractRule where
  name : String
  jq : Option String
  fulltext : Option Bool
  type : Option CastType

/-- Python `float(value)` restricted to the integer-modelled numbers:
numbers and booleans convert, a string parses if it spells an integer,
anything else is `none` (a `TypeError` or `ValueError`). -/
def pyFloat : JValue → Option Int
  | JValue.num n => some n
  | JValue.bool b => some (boolInt b)
  | JValue.str s => s.toInt?
  | _ => none

/-- `PipelineExecutor._cast_type`: "number" converts via `float` with
0.0 substituted on failure, "boolean" tests the lowercased string form
against true / 1 / yes, anything else passes the value through. -/
def castType (value : JValue) : Option CastType → JValue
  | some CastType.number => JValue.num ((pyFloat value).getD 0)
  | some CastType.boolean =>
    JValue.bool (decide (pyLower (pyStr value) ∈ ["true", "1", "yes"]))
  | _ => value

/-- Python `value is not None` filtering: collapse a looked-up `null`
into "no value", as the code's `None` checks do. -/
def pyOpt : Option JValue → Option JValue
  | some JValue.null => none
  | o => o

/-- Python `s.strip(chars)` for the single character `c`: drop every
leading and every trailing occurrence. -/
def stripChar (c : Char) (l : List Char) : List Char :=
  ((l.dropWhile (fun x => x = c)).reverse.dropWhile (fun x => x = c)).reverse

/-- The basic jq-like selection of `_extract_data`: the exact path "."
selects the whole parsed document, any other path is stripped of
leading and trailing dots and traversed as a dot-path. -/
def jqValue (doc : JValue) (jq : String) : Option JValue :=
  if jq = "." then some doc
  else lookupPath doc (String.mk (stripChar '.' jq.data))

/-- The raw value one rule selects, before the `is not None` check: a
truthy `fulltext` takes the whole response, otherwise a truthy `jq`
path applies when a parsed document exists, otherwise there is no
value. -/
def ruleValueRaw (response : JValue) (doc : Option JValue) (rule : ExtractRule) :
    Option JValue :=
  if rule.fulltext.getD false then some response
  else
    match rule.jq, doc with
    | some jq, some d => if jq = "" then none else jqValue d jq
    | _, _ => none

/-- The value a rule yields, with Python's `None` collapsed away (a
selected JSON `null` is indistinguishable from no value). -/
def ruleValue (response : JValue) (doc : Option JValue) (rule : ExtractRule) :
    Option JValue :=
  pyOpt (ruleValueRaw response doc rule)

/-- One iteration of the rule loop in `_extract_data`: write the cast
value under the rule's name when a value was produced, do nothing
otherwise. -/
def processRule (ctx : Ctx) (response : JValue) (doc : Option JValue)
    (rule : ExtractRule) : Ctx :=
  match ruleValue response doc rule with
  | some v => ctxInsert ctx rule.name (castType v rule.type)
  | none => ctx

/-- The rule loop of `_extract_data`, in order. -/
def runRules (ctx : Ctx) (response : JValue) (doc : Option JValue) :
    List ExtractRule → Ctx
  | [] => ctx
  | rule :: rest => runRules (processRule ctx response doc rule) response doc rest

/-- `PipelineExecutor._extract_data`, parameterised by the JSON parser
(`json.loads`, a library function: `none` models a
`json.JSONDecodeError`).  Under json mode a decode failure is caught
and aborts the whole extraction with the context unchanged; calling the
parser on a non-string response would raise an uncaught `TypeError`,
modelled by `Except.error`.  The parsed document degrades to "no
document" when it is JSON `null`, exactly as the code's
`data_to_parse is not None` test does. -/
def extractData (parse : String → Option JValue) (ctx : Ctx) (response : JValue)
    (rules : List ExtractRule) (isJsonResponse : Bool) : Except Unit Ctx :=
  if isJsonResponse then
    match response with
    | JValue.str s =>
      match parse s with
      | none => Except.ok ctx
      | some d => Except.ok (runRules ctx response (pyOpt (some d)) rules)
    | _ => Except.error ()
  else
    Except.ok (runRules ctx response none rules)

/-- Scan for the regex fragment after a literal placeholder opener: a
non-empty greedy run of non-brace characters followed by the closing
brace.  Returns the inner text and the remainder after the brace. -/
def takeInner (cs : List Char) : Option (List Char × List Char) :=
  match cs.takeWhile (fun c => c ≠ '}'), cs.dropWhile (fun c => c ≠ '}') with
  | _, [] => none
  | [], _ :: _ => none
  | i :: inner, _ :: rest => some (i :: inner, rest)

theorem dropWhileLenLe (p : Char → Bool) :
    ∀ cs : List Char, (cs.dropWhile p).length ≤ cs.length := by
  intro cs
  induction cs with
  | nil => simp [List.dropWhile]
  | cons c rest ih =>
    simp only [List.dropWhile]
    cases p c <;> simp <;> omega

theorem takeInner_length {cs inner rest : List Char}
    (h : takeInner cs = some (inner, rest)) : rest.length < cs.length := by
  unfold takeInner at h
  rcases ht : cs.takeWhile (fun c => c ≠ '}') with _ | ⟨i, tl⟩ <;>
    rcases hd : cs.dropWhile (fun c => c ≠ '}') with _ | ⟨x, dl⟩ <;>
      rw [ht, hd] at h
  · exact absurd h (by simp)
  · exact absurd h (by simp)
  · exact absurd h (by simp)
  · simp only [Option.some.injEq, Prod.mk.injEq] at h
    obtain ⟨h1, h2⟩ := h
    subst h2
    have hle := dropWhileLenLe (fun c => c ≠ '}') cs
    rw [hd] at hle
    simp only [List.length_cons] at hle
    omega

/-- The replacement text for one placeholder
(`replace_match` inside `_substitute_variables`): look the inner path
up in the context; a hit renders with `str`, while a miss — or a
context value that is Python `None` — renders as the empty string. -/
def render (ctx : Ctx) (path : String) : String :=
  match pyOpt (lookupPath (JValue.obj ctx) path) with
  | some v => pyStr v
  | none => ""

/-- Character-level model of
`re.sub` with the placeholder pattern, scanning left to right: a
dollar-brace opener followed by a non-empty brace-free run and a
closing brace is replaced and scanning resumes after the match (the
replacement is never re-scanned); everything else is copied verbatim,
with a failed opener re-tried from its second character, as the regex
engine advances one position. -/
def substChars (ctx : Ctx) : List Char → List Char
  | [] => []
  | '$' :: '{' :: rest =>
    match h : takeInner rest with
    | some (inner, rest2) =>
      (render ctx (String.mk inner)).data ++ substChars ctx rest2
    | none => '$' :: substChars ctx ('{' :: rest)
  | c :: rest => c :: substChars ctx rest
termination_by l => l.length
decreasing_by
  · simp only [List.length_cons]
    have := takeInner_length h
    omega
  · simp [List.length_cons]
  · simp [List.length_cons]

/-- `PipelineExecutor._substitute_variables`. -/
def substitute (ctx : Ctx) (template : String) : String :=
  String.mk (substChars ctx template.data)

/-- Whether the text contains a complete placeholder marker — an
occurrence of the same regex `substChars` replaces. -/
def hasMarker : List Char → Bool
  | [] => false
  | '$' :: '{' :: rest =>
    match takeInner rest with
    | some _ => true
    | none => hasMarker ('{' :: rest)
  | _ :: rest => hasMarker rest
termination_by l => l.length
decreasing_by
  · simp [List.length_cons]
  · simp [List.length_cons]

/-- The inner paths of the placeholders a template matches, in scan
order: the paths `substChars` would substitute. -/
def placeholdersOf : List Char → List (List Char)
  | [] => []
  | '$' :: '{' :: rest =>
    match h : takeInner rest with
    | some (inner, rest2) => inner :: placeholdersOf rest2
    | none => placeholdersOf ('{' :: rest)
  | _ :: rest => placeholdersOf rest
termination_by l => l.length
decreasing_by
  · simp only [List.length_cons]
    have := takeInner_length h
    omega
  · simp [List.length_cons]
  · simp [List.length_cons]

/-- One backend answer to a poll request, as the waiter sees it:
either some fault the loop catches and retries after the interval
(an HTTP error status, a transport error, an undecodable body, any
other exception) or a decoded JSON body. -/
inductive PollResponse where
  | fault : PollResponse
  | payload : JValue → PollResponse

/-- The terminal statuses of `ApiWaiter.wait_for_status`. -/
def terminalStatuses : List String := ["completed", "failed", "canceled"]

/-- The loop-body test of `wait_for_status` on one response: the
decoded body must be a dict carrying a string under "status" whose
lowercased form is terminal; every other outcome (a fault, a missing
or non-string status, a non-terminal status) makes the loop retry. -/
def terminalOf : PollResponse → Option JValue
  | PollResponse.fault => none
  | PollResponse.payload d =>
    match d with
    | JValue.obj fs =>
      match getKey fs "status" with
      | some (JValue.str s) =>
        if pyLower s ∈ terminalStatuses then some d else none
      | _ => none
    | _ => none

/-- `ApiWaiter.wait_for_status` over the sequence of backend answers:
poll until the first terminal response, returning how many poll
requests were issued together with the full final payload.  The real
loop is unbounded; `none` means it would still be polling past the
responses supplied. -/
def waitForStatus : List PollResponse → Option (Nat × JValue)
  | [] => none
  | r :: rs =>
    match terminalOf r with
    | some d => some (1, d)
    | none => (waitForStatus rs).map (fun p => (p.1 + 1, p.2))

/-- Python `x.startswith(pre)`, character by character. -/
def pyStartsWith (x pre : String) : Bool := isPrefixCh pre.data x.data

/-- `ModelPicker.consider_model`: filter the advertised capabilities to
the "LLM::"-prefixed ones and take the first; the request and language
hint are ignored by the placeholder policy. -/
def considerModel (request : String) (lang : Option String)
    (available : List String) : Option String :=
  match available.filter (fun x => pyStartsWith x "LLM::") with
  | [] => none
  | x :: _ => some x

/-- Fatal failures of a pipeline execution, by the design taxonomy:
`noCapabilityAvailable` is the `ValueError` the query sender raises
when the picker returns nothing; `backendRequestError` a non-success
submission response; `lookupError` a `KeyError`/`TypeError` indexing a
backend payload; `extractTypeError` `json.loads` applied to a
non-string; `neverTerminates` marks a wait that outlives the modelled
response sequence; `envExhausted` marks a query step beyond the
modelled backend interactions; `condError` an exception escaping
condition evaluation (unreachable). -/
inductive EngErr where
  | noCapabilityAvailable : EngErr
  | backendRequestError : EngErr
  | lookupError : EngErr
  | extractTypeError : EngErr
  | neverTerminates : EngErr
  | envExhausted : EngErr
  | condError : EngErr
deriving DecidableEq

/-- One backend task as the modelled environment provides it: the
decoded submission response (`none` models a non-success HTTP status,
which `raise_for_status` turns into a fatal error) and the poll
answers the waiter will receive. -/
structure TaskInteraction where
  submission : Option JValue
  polls : List PollResponse

/-- Dict indexing `d[k]` on a payload: `none` models the
`KeyError`/`TypeError` a miss or a non-dict raises. -/
def getJ : JValue → String → Option JValue
  | JValue.obj fs, k => getKey fs k
  | _, _ => none

/-- `QuerySender.execute`: pick a capability (raising when none is
available), submit the task, read the task id and capability out of
the submission response, block on the waiter, and return the terminal
payload's "output" field. -/
def querySenderExecute (available : List String) (ti : TaskInteraction)
    (lang : Option String) (modelRequested : String)
    (payloadJson : Option Bool) (systemMessage userMessage : String) :
    Except EngErr JValue :=
  match considerModel modelRequested lang available with
  | none => Except.error EngErr.noCapabilityAvailable
  | some _picked =>
    match ti.submission with
    | none => Except.error EngErr.backendRequestError
    | some task =>
      match (getJ task "id").bind (fun idv => getJ idv "id"),
            (getJ task "id").bind (fun idv => getJ idv "cap") with
      | some _taskId, some _cap =>
        match waitForStatus ti.polls with
        | none => Except.error EngErr.neverTerminates
        | some (_, result) =>
          match getJ result "output" with
          | none => Except.error EngErr.lookupError
          | some out => Except.ok out
      | _, _ => Except.error EngErr.lookupError

/-- A step message (`Message` in `pipelines/models.py`); the
chat-history placeholder is unused by the executor. -/
structure StepMessage where
  system : String
  user : String

/-- A pipeline step (`Step` in `pipelines/models.py`). -/
structure Step where
  action : String
  if_condition : Option (List Condition)
  json : Option Bool
  model : Option String
  lang : Option String
  message : Option StepMessage
  extract : Option (List ExtractRule)

/-- The modelled environment of one execution: the advertised backend
capabilities, the JSON parser, and the backend interactions successive
query steps consume. -/
structure Env where
  caps : List String
  parse : String → Option JValue
  tasks : List TaskInteraction

/-- `PipelineExecutor._execute_query_step`: no message means a no-op;
otherwise substitute both prompts, dispatch through the query sender,
and, when extraction rules exist, index "message" then "content" out of
the returned output (a miss raises) and fold the extraction into the
context. -/
def execQueryStep (env : Env) (tasks : List TaskInteraction) (ctx : Ctx)
    (step : Step) : Except EngErr (Ctx × List TaskInteraction) :=
  match step.message with
  | none => Except.ok (ctx, tasks)
  | some msg =>
    let systemPrompt := substitute ctx msg.system
    let userPrompt := substitute ctx msg.user
    match tasks with
    | [] => Except.error EngErr.envExhausted
    | ti :: moreTasks =>
      match querySenderExecute env.caps ti step.lang (step.model.getD "")
          step.json systemPrompt userPrompt with
      | Except.error e => Except.error e
      | Except.ok response =>
        match step.extract with
        | none => Except.ok (ctx, moreTasks)
        | some rules =>
          match (getJ response "message").bind (fun m => getJ m "content") with
          | none => Except.error EngErr.lookupError
          | some content =>
            match extractData env.parse ctx content rules (step.json.getD false) with
            | Except.error _ => Except.error EngErr.extractTypeError
            | Except.ok ctx2 => Except.ok (ctx2, moreTasks)

/-- The per-step dispatch of `PipelineExecutor.execute`: a "query"
action runs the query step, any other action is logged and skipped. -/
def runStep (env : Env) (tasks : List TaskInteraction) (ctx : Ctx)
    (step : Step) : Except EngErr (Ctx × List TaskInteraction) :=
  if step.action = "query" then execQueryStep env tasks ctx step
  else Except.ok (ctx, tasks)

/-- The step loop of `PipelineExecutor.execute`: per step, evaluate the
gate — on false skip the step and continue, on true run it, stopping
the whole execution on the first fatal error. -/
def runSteps (env : Env) : List TaskInteraction → Ctx → List Step → Except EngErr Ctx
  | _, ctx, [] => Except.ok ctx
  | tasks, ctx, step :: rest =>
    match evalConditions ctx step.if_condition with
    | Except.error _ => Except.error EngErr.condError
    | Except.ok false => runSteps env tasks ctx rest
    | Except.ok true =>
      match runStep env tasks ctx step with
      | Except.error e => Except.error e
      | Except.ok (ctx2, tasks2) => runSteps env tasks2 ctx2 rest

/-- `PipelineExecutor.execute`: seed the context with the initial
input, run every step in order, and return the whole accumulated
context. -/
def executePipeline (env : Env) (steps : List Step) (initialInput : JValue) :
    Except EngErr Ctx :=
  runSteps env env.tasks [("input", initialInput)] steps

/-! Helper lemmas shared between the claim theorems. -/

theorem getKey_ctxInsert_ne (ctx : List (String × JValue)) (k name : String)
    (v : JValue) (h : k ≠ name) :
    getKey (ctxInsert ctx k v) name = getKey ctx name := by
  induction ctx with
  | nil => simp [ctxInsert, getKey, h]
  | cons kv rest ih =>
    obtain ⟨k1, v1⟩ := kv
    by_cases hk : k1 = k
    · subst hk
      simp [ctxInsert, getKey, h]
    · simp only [ctxInsert, if_neg hk]
      by_cases hn : k1 = name
      · simp [getKey, hn]
      · simp [getKey, hn, ih]

theorem getKey_ctxInsert_self (ctx : List (String × JValue)) (k : String)
    (v : JValue) : getKey (ctxInsert ctx k v) k = some v := by
  induction ctx with
  | nil => simp [ctxInsert, getKey]
  | cons kv rest ih =>
    obtain ⟨k1, v1⟩ := kv
    by_cases hk : k1 = k
    · subst hk
      simp [ctxInsert, getKey]
    · simp [ctxInsert, getKey, hk, ih]

theorem pyOpt_some_ne_null {o : Option JValue} {v : JValue}
    (h : pyOpt o = some v) : v ≠ JValue.null := by
  rcases o with _ | w
  · simp [pyOpt] at h
  · cases w <;> simp [pyOpt] at h <;> subst h <;> simp

theorem castType_ne_null {v : JValue} (t : Option CastType)
    (h : v ≠ JValue.null) : castType v t ≠ JValue.null := by
  rcases t with _ | t
  · simpa [castType] using h
  · cases t <;> simp [castType] <;> assumption

/-- C1.  If json mode is on and the response text does not parse as
JSON, the extraction returns with the context untouched — no rule, not
even a fulltext one, writes anything — and no exception is raised. -/
theorem extract_json_failure_leaves_ctx (parse : String → Option JValue)
    (ctx : Ctx) (s : String) (rules : List ExtractRule)
    (h : parse s = none) :
    extractData parse ctx (JValue.str s) rules true = Except.ok ctx := by
  simp [extractData, h]

/-- C1 witness: a fulltext rule and a jq rule over an unparsable
response write nothing. -/
theorem extract_json_failure_leaves_ctx_witness :
    extractData (fun _ => none) [("k", JValue.num 1)] (JValue.str "oops")
      [⟨"full", none, some true, none⟩, ⟨"x", some "a.b", none, none⟩] true =
      Except.ok [("k", JValue.num 1)] :=
  extract_json_failure_leaves_ctx (fun _ => none) [("k", JValue.num 1)] "oops"
    [⟨"full", none, some true, none⟩, ⟨"x", some "a.b", none, none⟩] rfl

/-- C3.  When the operator application raises a `TypeError` on the raw
operands, the evaluator retries it on `str(a)` and `str(b)`; the
retried application never fails (every operator is total on a pair of
strings), so the base result is its value — encoded by `getD false`,
which also expresses that a failing retry would give false — and no
exception reaches the caller (the result is `Except.ok`). -/
theorem cond_op_string_retry (op : Op) (a b : JValue)
    (h : applyOp op a b = none) :
    applyOpStrRetry op a b =
      Except.ok ((applyOp op (JValue.str (pyStr a)) (JValue.str (pyStr b))).getD
        false) := by
  have htot : ∀ s t : String,
      applyOp op (JValue.str s) (JValue.str t) ≠ none := by
    intro s t
    cases op <;> simp [applyOp, pyCompare, pyContains, pyIs, jEq]
  rcases hr : applyOp op (JValue.str (pyStr a)) (JValue.str (pyStr b)) with _ | r
  · exact absurd hr (htot _ _)
  · simp [applyOpStrRetry, h, hr]

/-- C3 witness: gt between a number and a string raises, and the
stringified retry decides the base result. -/
theorem cond_op_string_retry_witness :
    applyOpStrRetry Op.gt (JValue.num 1) (JValue.str "x") =
      Except.ok ((applyOp Op.gt (JValue.str (pyStr (JValue.num 1)))
        (JValue.str (pyStr (JValue.str "x")))).getD false) :=
  cond_op_string_retry Op.gt (JValue.num 1) (JValue.str "x") rfl

theorem processRule_no_value (ctx : Ctx) (response : JValue)
    (doc : Option JValue) (rule : ExtractRule)
    (h : ruleValue response doc rule = none) :
    processRule ctx response doc rule = ctx := by
  simp [processRule, h]

theorem runRules_getKey_of_no_value (response : JValue) (doc : Option JValue)
    (rules : List ExtractRule) (name : String) :
    ∀ ctx : Ctx,
      (∀ r ∈ rules, r.name = name → ruleValue response doc r = none) →
      getKey (runRules ctx response doc rules) name = getKey ctx name := by
  induction rules with
  | nil => intro ctx _; simp [runRules]
  | cons rule rest ih =>
    intro ctx h
    have hrest : ∀ r ∈ rest, r.name = name → ruleValue response doc r = none := by
      intro r hr
      exact h r (List.mem_cons_of_mem _ hr)
    simp only [runRules]
    rw [ih (processRule ctx response doc rule) hrest]
    rcases hv : ruleValue response doc rule with _ | v
    · rw [processRule_no_value ctx response doc rule hv]
    · by_cases hn : rule.name = name
      · rw [h rule (List.mem_cons_self _ _) hn] at hv
        exact absurd hv (by simp)
      · simp only [processRule, hv]
        exact getKey_ctxInsert_ne ctx rule.name name _ hn

theorem runRules_no_null (response : JValue) (doc : Option JValue)
    (rules : List ExtractRule) (name : String) :
    ∀ ctx : Ctx,
      getKey (runRules ctx response doc rules) name = some JValue.null →
      getKey ctx name = some JValue.null := by
  induction rules with
  | nil => intro ctx h; simpa [runRules] using h
  | cons rule rest ih =>
    intro ctx h
    simp only [runRules] at h
    have h1 := ih (processRule ctx response doc rule) h
    rcases hv : ruleValue response doc rule with _ | v
    · rwa [processRule_no_value ctx response doc rule hv] at h1
    · simp only [processRule, hv] at h1
      by_cases hn : rule.name = name
      · subst hn
        rw [getKey_ctxInsert_self] at h1
        have hnn : castType v rule.type ≠ JValue.null :=
          castType_ne_null rule.type (pyOpt_some_ne_null hv)
        exact absurd (Option.some.inj h1) hnn
      · rwa [getKey_ctxInsert_ne ctx rule.name name _ hn] at h1

/-- C9.  A rule that yields no value — fulltext unset and no jq path,
a jq path without a parsed document, a failing dot-path, or a selected
JSON null — writes nothing: its loop iteration returns the context
unchanged; if every rule targeting a name yields no value the entry
under that name is untouched; and extraction never writes a null into
the context (a null in the output was already in the input). -/
theorem extract_no_value_writes_nothing :
    (∀ (ctx : Ctx) (response : JValue) (doc : Option JValue)
      (rule : ExtractRule), ruleValue response doc rule = none →
        processRule ctx response doc rule = ctx) ∧
    (∀ (ctx : Ctx) (response : JValue) (doc : Option JValue)
      (rules : List ExtractRule) (name : String),
      (∀ r ∈ rules, r.name = name → ruleValue response doc r = none) →
        getKey (runRules ctx response doc rules) name = getKey ctx name) ∧
    (∀ (ctx : Ctx) (response : JValue) (doc : Option JValue)
      (rules : List ExtractRule) (name : String),
      getKey (runRules ctx response doc rules) name = some JValue.null →
        getKey ctx name = some JValue.null) :=
  ⟨processRule_no_value,
   fun ctx response doc rules name h =>
     runRules_getKey_of_no_value response doc rules name ctx h,
   fun ctx response doc rules name h =>
     runRules_no_null response doc rules name ctx h⟩

/-- C9 witness: a rule whose jq path misses the parsed document leaves
a pre-existing entry under its own name unchanged. -/
theorem extract_no_value_writes_nothing_witness :
    processRule [("x", JValue.num 7)] (JValue.str "resp")
      (some (JValue.obj [("a", JValue.num 1)]))
      ⟨"x", some "b", none, none⟩ = [("x", JValue.num 7)] :=
  extract_no_value_writes_nothing.1 [("x", JValue.num 7)] (JValue.str "resp")
    (some (JValue.obj [("a", JValue.num 1)])) ⟨"x", some "b", none, none⟩ rfl

theorem stripChar_cons_self (c : Char) (l : List Char) :
    stripChar c (c :: l) = stripChar c l := by
  simp [stripChar, List.dropWhile_cons]

theorem stripChar_append_self (c : Char) (l : List Char) :
    stripChar c (l ++ [c]) = stripChar c l := by
  unfold stripChar
  rw [List.dropWhile_append]
  by_cases h : (l.dropWhile (fun x => x = c)).isEmpty
  · simp only [h, if_pos]
    rw [List.isEmpty_iff] at h
    simp [h, List.dropWhile_cons]
  · simp only [h, if_neg, Bool.not_eq_true]
    rw [List.reverse_append]
    simp [List.dropWhile_cons]

theorem splitOnChar_ne_nil (c : Char) (l : List Char) : splitOnChar c l ≠ [] := by
  induction l with
  | nil => simp [splitOnChar]
  | cons x xs ih =>
    simp only [splitOnChar]
    rcases h : splitOnChar c xs with _ | ⟨y, ys⟩
    · by_cases hx : x = c <;> simp [hx]
    · by_cases hx : x = c <;> simp [hx]

theorem getKey_size {fs : List (String × JValue)} {k : String} {w : JValue}
    (h : getKey fs k = some w) : sizeOf w < sizeOf (JValue.obj fs) := by
  induction fs with
  | nil => simp [getKey] at h
  | cons kv rest ih =>
    obtain ⟨k1, v1⟩ := kv
    by_cases hk : k1 = k
    · simp only [getKey, if_pos hk, Option.some.injEq] at h
      subst h
      simp
      omega
    · simp only [getKey, if_neg hk] at h
      have := ih h
      simp at this ⊢
      omega

theorem lookupKeys_size : ∀ (ks : List String) (doc v : JValue), ks ≠ [] →
    lookupKeys doc ks = some v → sizeOf v < sizeOf doc := by
  intro ks
  induction ks with
  | nil => intro doc v h hl; exact absurd rfl h
  | cons k rest ih =>
    intro doc v hne h
    rcases doc with _ | b | n | s | xs | fs
    · simp [lookupKeys] at h
    · simp [lookupKeys] at h
    · simp [lookupKeys] at h
    · simp [lookupKeys] at h
    · simp [lookupKeys] at h
    · simp only [lookupKeys] at h
      rcases hg : getKey fs k with _ | w <;> rw [hg] at h
      · exact absurd h (by simp)
      · rcases rest with _ | ⟨k2, ks2⟩
        · simp only [lookupKeys, Option.some.injEq] at h
          subst h
          exact getKey_size hg
        · have h1 := ih w v (by simp) h
          have h2 := getKey_size hg
          omega

theorem string_mk_eq_dot (p : List Char) : (String.mk p = ".") ↔ p = ['.'] := by
  constructor
  · intro h
    have := congrArg String.data h
    simpa using this
  · intro h
    subst h
    rfl

theorem jqValue_dot_invariant (doc : JValue) (p : List Char) (hne : p ≠ [])
    (hd : p ≠ ['.']) :
    jqValue doc (String.mk ('.' :: p)) = jqValue doc (String.mk p) ∧
    jqValue doc (String.mk (p ++ ['.'])) = jqValue doc (String.mk p) := by
  have h1 : ¬(String.mk ('.' :: p) = ".") := by
    rw [string_mk_eq_dot]
    intro h
    simp only [List.cons.injEq] at h
    exact hne h.2
  have h2 : ¬(String.mk (p ++ ['.']) = ".") := by
    rw [string_mk_eq_dot]
    intro h
    rcases p with _ | ⟨x, xs⟩
    · exact hne rfl
    · simp at h
  have h3 : ¬(String.mk p = ".") := by
    rw [string_mk_eq_dot]
    exact hd
  constructor
  · rw [jqValue, jqValue, if_neg h1, if_neg h3]
    show lookupPath doc (String.mk (stripChar '.' ('.' :: p))) =
      lookupPath doc (String.mk (stripChar '.' p))
    rw [stripChar_cons_self]
  · rw [jqValue, jqValue, if_neg h2, if_neg h3]
    show lookupPath doc (String.mk (stripChar '.' (p ++ ['.']))) =
      lookupPath doc (String.mk (stripChar '.' p))
    rw [stripChar_append_self]

theorem jqValue_proper_subvalue (doc : JValue) (jq : String) (h : jq ≠ ".") :
    jqValue doc jq ≠ some doc := by
  intro hsel
  rw [jqValue, if_neg h] at hsel
  unfold lookupPath at hsel
  have hknil : ((splitOnChar '.' (String.mk (stripChar '.' jq.data)).data).map
      (fun l => String.mk l)) ≠ [] := by
    intro hnil
    rcases hsp : splitOnChar '.' (String.mk (stripChar '.' jq.data)).data with _ | _
    · exact splitOnChar_ne_nil _ _ hsp
    · rw [hsp] at hnil
      simp at hnil
  have hlt := lookupKeys_size _ doc doc hknil hsel
  omega

/-- C10.  Any jq path other than the exact "." is stripped of all
leading and trailing dots before traversal — so prefixing or suffixing
a dot to a path (other than "" and ".") never changes the selected
value — and the exact path "." is the only one that can select the
whole parsed document. -/
theorem jq_path_strip_spec :
    (∀ (doc : JValue) (jq : String), jq ≠ "." →
      jqValue doc jq = lookupPath doc (String.mk (stripChar '.' jq.data))) ∧
    (∀ (doc : JValue) (p : List Char), p ≠ [] → p ≠ ['.'] →
      jqValue doc (String.mk ('.' :: p)) = jqValue doc (String.mk p) ∧
      jqValue doc (String.mk (p ++ ['.'])) = jqValue doc (String.mk p)) ∧
    (∀ (doc : JValue) (jq : String), jq ≠ "." →
      jqValue doc jq ≠ some doc) :=
  ⟨fun doc jq h => by simp [jqValue, h],
   jqValue_dot_invariant,
   jqValue_proper_subvalue⟩

/-- C10 witness: the three spellings select the same value on a sample
document, and a non-dot path does not select the whole document. -/
theorem jq_path_strip_spec_witness :
    jqValue (JValue.obj [("foo", JValue.obj [("bar", JValue.num 3)])])
        (String.mk ('.' :: "foo.bar".data)) =
      jqValue (JValue.obj [("foo", JValue.obj [("bar", JValue.num 3)])])
        (String.mk "foo.bar".data) ∧
    jqValue (JValue.obj [("foo", JValue.obj [("bar", JValue.num 3)])])
        (String.mk ("foo.bar".data ++ ['.'])) =
      jqValue (JValue.obj [("foo", JValue.obj [("bar", JValue.num 3)])])
        (String.mk "foo.bar".data) ∧
    jqValue (JValue.obj [("a", JValue.num 1)]) "a" ≠
      some (JValue.obj [("a", JValue.num 1)]) :=
  ⟨(jq_path_strip_spec.2.1 (JValue.obj [("foo", JValue.obj [("bar", JValue.num 3)])])
      "foo.bar".data (by decide) (by decide)).1,
   (jq_path_strip_spec.2.1 (JValue.obj [("foo", JValue.obj [("bar", JValue.num 3)])])
      "foo.bar".data (by decide) (by decide)).2,
   jq_path_strip_spec.2.2 (JValue.obj [("a", JValue.num 1)]) "a" (by decide)⟩

/-- C2 counterexample.  With context `y = 1` and the condition
`x eq 0 or [y eq 1]`, the attribute path "x" does not resolve, yet the
condition's `or` list is consulted and the overall result is true —
refuting the claim that an unresolved path short-circuits the nested
clauses and forces an overall false. -/
theorem cond_missing_path_or_counterexample :
    lookupPath (JValue.obj [("y", JValue.num 1)]) "x" = none ∧
    evalSingle [("y", JValue.num 1)]
      (Condition.mk "x" Op.eq (JValue.num 0) []
        [Condition.mk "y" Op.eq (JValue.num 1) [] []]) = Except.ok true := by
  constructor
  · rfl
  · simp [evalSingle, evalAny, lookupPath, splitOnChar, lookupKeys, getKey,
      applyOpStrRetry, applyOp, jEq]

/-- C2 (amended).  When the attribute path does not resolve, the base
result is false without raising and the `and` list is never consulted;
but a non-empty `or` list is still evaluated and its disjunction
becomes the overall result (an empty `or` list leaves the result
false): the evaluation equals `evalAny` of the `or` clauses, whatever
the `and` list holds. -/
theorem cond_missing_path_gives_or (ctx : Ctx) (a : String) (op : Op)
    (b : JValue) (ands ors : List Condition)
    (h : lookupPath (JValue.obj ctx) a = none) :
    evalSingle ctx (Condition.mk a op b ands ors) = evalAny ctx ors := by
  rcases ors with _ | ⟨c, cs⟩
  · simp [evalSingle, evalAny, h]
  · simp [evalSingle, h]

/-- C2 witness: a missing path with an empty `or` list gives false,
whatever the `and` list holds. -/
theorem cond_missing_path_gives_or_witness :
    evalSingle [("score", JValue.num 3)]
      (Condition.mk "flag" Op.gt (JValue.num 5)
        [Condition.mk "score" Op.gt (JValue.num 1) [] []] []) =
      evalAny [("score", JValue.num 3)] [] :=
  cond_missing_path_gives_or [("score", JValue.num 3)] "flag" Op.gt
    (JValue.num 5) [Condition.mk "score" Op.gt (JValue.num 1) [] []] [] rfl

/-- The sample completed payload of the waiter scenario. -/
def completedPayload : JValue :=
  JValue.obj [("status", JValue.str "completed"),
    ("output", JValue.obj [("message",
      JValue.obj [("content", JValue.str "done")])])]

/-- The sample processing payload of the waiter scenario. -/
def processingPayload : JValue :=
  JValue.obj [("status", JValue.str "processing")]

/-- C4.  Over the response sequence processing, processing, completed
the waiter issues exactly three poll requests and returns the third
payload unmodified; in general every non-terminal response (a fault, a
missing or non-string status, a status whose lowercased form is not
terminal) adds one request and the loop goes on, while any payload
whose lowercased status is completed, failed or canceled ends the loop
at once with that full payload, whichever of the three it is. -/
theorem waiter_polls_to_terminal :
    waitForStatus [PollResponse.payload processingPayload,
      PollResponse.payload processingPayload,
      PollResponse.payload completedPayload] = some (3, completedPayload) ∧
    (∀ (r : PollResponse) (rs : List PollResponse), terminalOf r = none →
      waitForStatus (r :: rs) =
        (waitForStatus rs).map (fun p => (p.1 + 1, p.2))) ∧
    (∀ (fs : List (String × JValue)) (rs : List PollResponse) (s : String),
      getKey fs "status" = some (JValue.str s) →
      pyLower s ∈ terminalStatuses →
      waitForStatus (PollResponse.payload (JValue.obj fs) :: rs) =
        some (1, JValue.obj fs)) := by
  refine ⟨?_, ?_, ?_⟩
  · rfl
  · intro r rs h
    simp [waitForStatus, h]
  · intro fs rs s hs hterm
    simp [waitForStatus, terminalOf, hs, hterm]

/-- C4 witness: a fault then an uppercase-status failed payload: two
requests, the failed payload returned whole. -/
theorem waiter_polls_to_terminal_witness :
    waitForStatus [PollResponse.fault,
      PollResponse.payload (JValue.obj [("status", JValue.str "FAILED")])] =
      some (2, JValue.obj [("status", JValue.str "FAILED")]) := by
  rw [waiter_polls_to_terminal.2.1 PollResponse.fault _ rfl,
    waiter_polls_to_terminal.2.2 [("status", JValue.str "FAILED")] [] "FAILED"
      rfl (by decide)]
  rfl

/-- The output field of the sample terminal payload below: the dict
holding the message with its content — not the content string. -/
def outputValue : JValue :=
  JValue.obj [("message", JValue.obj [("content", JValue.str "hi")])]

/-- A terminal payload whose output field wraps the content "hi". -/
def terminalPayload0 : JValue :=
  JValue.obj [("status", JValue.str "completed"), ("output", outputValue)]

/-- A submission response carrying a task id and capability. -/
def submission0 : JValue :=
  JValue.obj [("id", JValue.obj [("id", JValue.str "t1"),
    ("cap", JValue.str "LLM::m")])]

/-- A modelled backend interaction that completes at the first poll. -/
def ti0 : TaskInteraction :=
  TaskInteraction.mk (some submission0) [PollResponse.payload terminalPayload0]

/-- C5 counterexample.  On a successful dispatch whose terminal payload
has content "hi", the query sender returns the whole output dict, not
the content string: the claim that it returns the payload's content
field fails on this input. -/
theorem query_sender_content_counterexample :
    querySenderExecute ["LLM::m"] ti0 none "m" none "s" "u" =
      Except.ok outputValue ∧
    lookupKeys terminalPayload0 ["output", "message", "content"] =
      some (JValue.str "hi") ∧
    (Except.ok outputValue : Except EngErr JValue) ≠
      Except.ok (JValue.str "hi") :=
  ⟨rfl, rfl, fun h => JValue.noConfusion (Except.ok.inj h)⟩

/-- C5 (amended).  On every successful dispatch the query sender
returns the terminal payload's output field — the dict that holds
message.content — to its caller; the content string inside it is read
out later by the executor's extraction step. -/
theorem query_sender_returns_output_field (caps : List String)
    (ti : TaskInteraction) (lang : Option String) (req : String)
    (pj : Option Bool) (sys usr : String) (picked : String)
    (task idv tid cap : JValue) (n : Nat) (result out : JValue)
    (h1 : considerModel req lang caps = some picked)
    (h2 : ti.submission = some task)
    (h3 : getJ task "id" = some idv)
    (h4 : getJ idv "id" = some tid)
    (h5 : getJ idv "cap" = some cap)
    (h6 : waitForStatus ti.polls = some (n, result))
    (h7 : getJ result "output" = some out) :
    querySenderExecute caps ti lang req pj sys usr = Except.ok out := by
  simp [querySenderExecute, h1, h2, h3, h4, h5, h6, h7]

/-- C5 witness: the amended theorem evaluated on the sample
interaction. -/
theorem query_sender_returns_output_field_witness :
    querySenderExecute ["LLM::m"] ti0 none "m" none "sys" "usr" =
      Except.ok outputValue :=
  query_sender_returns_output_field ["LLM::m"] ti0 none "m" none "sys" "usr"
    "LLM::m" submission0
    (JValue.obj [("id", JValue.str "t1"), ("cap", JValue.str "LLM::m")])
    (JValue.str "t1") (JValue.str "LLM::m") 1 terminalPayload0 outputValue
    rfl rfl rfl rfl rfl rfl rfl

/-- C6.  The model picker selects the first advertised capability with
the "LLM::" prefix; and when no advertised capability carries the
prefix, a gated-in query step fails the whole execution at once with
the no-capability error — the remaining steps are never reached. -/
theorem model_picker_first_llm :
    (∀ (req : String) (lang : Option String) (caps : List String),
      considerModel req lang caps =
        caps.find? (fun c => pyStartsWith c "LLM::")) ∧
    (∀ (env : Env) (ctx : Ctx) (step : Step) (rest : List Step)
      (msg : StepMessage) (ti : TaskInteraction) (ts : List TaskInteraction),
      (∀ c ∈ env.caps, pyStartsWith c "LLM::" = false) →
      step.action = "query" → step.if_condition = none →
      step.message = some msg →
      runSteps env (ti :: ts) ctx (step :: rest) =
        Except.error EngErr.noCapabilityAvailable) := by
  have hfind : ∀ (req : String) (lang : Option String) (caps : List String),
      considerModel req lang caps =
        caps.find? (fun c => pyStartsWith c "LLM::") := by
    intro req lang caps
    induction caps with
    | nil => rfl
    | cons c cs ih =>
      by_cases h : pyStartsWith c "LLM::"
      · simp [considerModel, List.filter_cons, List.find?_cons, h]
      · simp only [considerModel, List.filter_cons, h] at ih ⊢
        simp only [List.find?_cons, h]
        exact ih
  refine ⟨hfind, ?_⟩
  intro env ctx step rest msg ti ts hcaps haction hcond hmsg
  have hnone : considerModel (step.model.getD "") step.lang env.caps = none := by
    rw [hfind]
    simp only [List.find?_eq_none]
    intro c hc
    simp [hcaps c hc]
  simp [runSteps, hcond, evalConditions, runStep, haction, execQueryStep, hmsg,
    querySenderExecute, hnone]

/-- C6 witness: with only non-LLM capabilities advertised, a simple
query step aborts the execution with the no-capability error. -/
theorem model_picker_first_llm_witness :
    runSteps (Env.mk ["OCR::x"] (fun _ => none) [ti0]) [ti0] []
      [Step.mk "query" none none none none (some (StepMessage.mk "s" "u")) none,
       Step.mk "query" none none none none none none] =
      Except.error EngErr.noCapabilityAvailable :=
  model_picker_first_llm.2 (Env.mk ["OCR::x"] (fun _ => none) [ti0]) []
    (Step.mk "query" none none none none (some (StepMessage.mk "s" "u")) none)
    [Step.mk "query" none none none none none none]
    (StepMessage.mk "s" "u") ti0 []
    (by intro c hc; simp at hc; subst hc; decide) rfl rfl rfl

/-- C8.  A step whose gate evaluates to false is skipped with no side
effects: running the remaining pipeline from the same context and the
same backend state is all that happens, no error is raised; and an
absent or empty gate evaluates to true. -/
theorem executor_skips_gated_step :
    (∀ (env : Env) (tasks : List TaskInteraction) (ctx : Ctx) (step : Step)
      (rest : List Step),
      evalConditions ctx step.if_condition = Except.ok false →
      runSteps env tasks ctx (step :: rest) = runSteps env tasks ctx rest) ∧
    (∀ ctx : Ctx, evalConditions ctx none = Except.ok true) ∧
    (∀ ctx : Ctx, evalConditions ctx (some []) = Except.ok true) := by
  refine ⟨?_, fun _ => rfl, fun _ => rfl⟩
  intro env tasks ctx step rest h
  simp [runSteps, h]

/-! Step equations for the substitution scanner, its marker detector
and its placeholder collector (their definitions recurse by
well-founded recursion, so the equations are proved once here). -/

theorem substChars_nil (ctx : Ctx) : substChars ctx [] = [] := by
  simp [substChars]

theorem substChars_cons_ne (ctx : Ctx) (c : Char) (rest : List Char)
    (h : c ≠ '$') : substChars ctx (c :: rest) = c :: substChars ctx rest := by
  simp [substChars, h]

theorem substChars_dollar_no_lbrace (ctx : Ctx) (rest : List Char)
    (h : rest.head? ≠ some '{') :
    substChars ctx ('$' :: rest) = '$' :: substChars ctx rest := by
  rcases rest with _ | ⟨c, r⟩
  · simp [substChars]
  · simp only [List.head?_cons, ne_eq, Option.some.injEq] at h
    simp [substChars, h]

theorem substChars_open_nomatch (ctx : Ctx) (rest : List Char)
    (h : takeInner rest = none) :
    substChars ctx ('$' :: '{' :: rest) = '$' :: substChars ctx ('{' :: rest) := by
  simp only [substChars]
  split <;> simp_all [substChars]

theorem substChars_open_match (ctx : Ctx) (rest inner rest2 : List Char)
    (h : takeInner rest = some (inner, rest2)) :
    substChars ctx ('$' :: '{' :: rest) =
      (render ctx (String.mk inner)).data ++ substChars ctx rest2 := by
  simp only [substChars]
  split <;> simp_all

theorem hasMarker_nil : hasMarker [] = false := by
  simp [hasMarker]

theorem hasMarker_cons_ne (c : Char) (rest : List Char) (h : c ≠ '$') :
    hasMarker (c :: rest) = hasMarker rest := by
  simp [hasMarker, h]

theorem hasMarker_dollar_no_lbrace (rest : List Char)
    (h : rest.head? ≠ some '{') : hasMarker ('$' :: rest) = hasMarker rest := by
  rcases rest with _ | ⟨c, r⟩
  · simp [hasMarker]
  · simp only [List.head?_cons, ne_eq, Option.some.injEq] at h
    simp [hasMarker, h]

theorem hasMarker_open_nomatch (rest : List Char) (h : takeInner rest = none) :
    hasMarker ('$' :: '{' :: rest) = hasMarker ('{' :: rest) := by
  simp only [hasMarker]
  split <;> simp_all [hasMarker]

theorem hasMarker_open_match (rest inner rest2 : List Char)
    (h : takeInner rest = some (inner, rest2)) :
    hasMarker ('$' :: '{' :: rest) = true := by
  simp only [hasMarker]
  split <;> simp_all

theorem placeholdersOf_nil : placeholdersOf [] = [] := by
  simp [placeholdersOf]

theorem placeholdersOf_cons_ne (c : Char) (rest : List Char) (h : c ≠ '$') :
    placeholdersOf (c :: rest) = placeholdersOf rest := by
  simp [placeholdersOf, h]

theorem placeholdersOf_dollar_no_lbrace (rest : List Char)
    (h : rest.head? ≠ some '{') :
    placeholdersOf ('$' :: rest) = placeholdersOf rest := by
  rcases rest with _ | ⟨c, r⟩
  · simp [placeholdersOf]
  · simp only [List.head?_cons, ne_eq, Option.some.injEq] at h
    simp [placeholdersOf, h]

theorem placeholdersOf_open_nomatch (rest : List Char)
    (h : takeInner rest = none) :
    placeholdersOf ('$' :: '{' :: rest) = placeholdersOf ('{' :: rest) := by
  simp only [placeholdersOf]
  split <;> simp_all [placeholdersOf]

theorem placeholdersOf_open_match (rest inner rest2 : List Char)
    (h : takeInner rest = some (inner, rest2)) :
    placeholdersOf ('$' :: '{' :: rest) = inner :: placeholdersOf rest2 := by
  simp only [placeholdersOf]
  split <;> simp_all

/-! Characterisations of the placeholder-tail scanner. -/

theorem takeInner_concrete (inner rest : List Char) (hne : inner ≠ [])
    (hnb : '}' ∉ inner) :
    takeInner (inner ++ '}' :: rest) = some (inner, rest) := by
  have hpos : ∀ a ∈ inner, decide (a ≠ '}') = true := by
    intro a ha
    rw [decide_eq_true_eq]
    intro hq
    exact hnb (hq ▸ ha)
  have ht : (inner ++ '}' :: rest).takeWhile (fun c => c ≠ '}') = inner := by
    rw [List.takeWhile_append_of_pos hpos]
    simp [List.takeWhile_cons]
  have hd : (inner ++ '}' :: rest).dropWhile (fun c => c ≠ '}') = '}' :: rest := by
    rw [List.dropWhile_append_of_pos hpos]
    simp [List.dropWhile_cons]
  unfold takeInner
  rw [ht, hd]
  rcases inner with _ | ⟨i, tl⟩
  · exact absurd rfl hne
  · rfl

theorem takeInner_no_rbrace (cs : List Char) (h : '}' ∉ cs) :
    takeInner cs = none := by
  have hd : cs.dropWhile (fun c => c ≠ '}') = [] := by
    rw [List.dropWhile_eq_nil_iff]
    intro x hx
    simp only [ne_eq, decide_eq_true_eq]
    intro hq
    exact h (hq ▸ hx)
  unfold takeInner
  rw [hd]
  rcases cs.takeWhile (fun c => c ≠ '}') with _ | _ <;> rfl

theorem takeInner_none_cases (cs : List Char) (h : takeInner cs = none) :
    '}' ∉ cs ∨ cs.head? = some '}' := by
  by_cases hmem : '}' ∈ cs
  · right
    unfold takeInner at h
    rcases ht : cs.takeWhile (fun c => c ≠ '}') with _ | ⟨i, tl⟩ <;>
      rcases hd : cs.dropWhile (fun c => c ≠ '}') with _ | ⟨x, dl⟩ <;>
        rw [ht, hd] at h
    · rw [List.dropWhile_eq_nil_iff] at hd
      have := hd '}' hmem
      simp at this
    · rcases cs with _ | ⟨c, rest⟩
      · simp at hmem
      · rw [List.takeWhile_cons] at ht
        by_cases hc : decide (c ≠ '}') = true
        · rw [if_pos hc] at ht
          simp at ht
        · simp only [decide_eq_true_eq] at hc
          simp only [not_not] at hc
          simp [hc]
    · rw [List.dropWhile_eq_nil_iff] at hd
      have := hd '}' hmem
      simp at this
    · simp at h
  · left
    exact hmem

theorem takeInner_rbrace_head (cs : List Char) :
    takeInner ('}' :: cs) = none := by
  unfold takeInner
  simp [List.takeWhile_cons, List.dropWhile_cons]

theorem substChars_no_rbrace (ctx : Ctx) :
    ∀ (n : Nat) (t : List Char), t.length ≤ n → '}' ∉ t →
      substChars ctx t = t := by
  intro n
  induction n with
  | zero =>
    intro t hl _
    rw [Nat.le_zero, List.length_eq_zero] at hl
    subst hl
    exact substChars_nil ctx
  | succ n ih =>
    intro t hl hnb
    rcases t with _ | ⟨c, rest⟩
    · exact substChars_nil ctx
    · by_cases hc : c = '$'
      · subst hc
        rcases rest with _ | ⟨c2, r2⟩
        · rw [substChars_dollar_no_lbrace ctx [] (by simp), substChars_nil]
        · by_cases hc2 : c2 = '{'
          · subst hc2
            have hnb2 : '}' ∉ r2 := fun hm =>
              hnb (List.mem_cons_of_mem _ (List.mem_cons_of_mem _ hm))
            rw [substChars_open_nomatch ctx r2 (takeInner_no_rbrace r2 hnb2),
              substChars_cons_ne ctx '{' r2 (by decide),
              ih r2 (by simp at hl; omega) hnb2]
          · rw [substChars_dollar_no_lbrace ctx (c2 :: r2)
              (by simp only [List.head?_cons, ne_eq, Option.some.injEq]; exact hc2),
              ih (c2 :: r2) (by simp only [List.length_cons] at hl ⊢; omega)
                (fun hm => hnb (List.mem_cons_of_mem _ hm))]
      · rw [substChars_cons_ne ctx c rest hc,
          ih rest (by simp at hl; omega)
            (fun hm => hnb (List.mem_cons_of_mem _ hm))]

theorem hasMarker_no_rbrace :
    ∀ (n : Nat) (t : List Char), t.length ≤ n → '}' ∉ t →
      hasMarker t = false := by
  intro n
  induction n with
  | zero =>
    intro t hl _
    rw [Nat.le_zero, List.length_eq_zero] at hl
    subst hl
    exact hasMarker_nil
  | succ n ih =>
    intro t hl hnb
    rcases t with _ | ⟨c, rest⟩
    · exact hasMarker_nil
    · by_cases hc : c = '$'
      · subst hc
        rcases rest with _ | ⟨c2, r2⟩
        · rw [hasMarker_dollar_no_lbrace [] (by simp)]
          exact hasMarker_nil
        · by_cases hc2 : c2 = '{'
          · subst hc2
            have hnb2 : '}' ∉ r2 := fun hm =>
              hnb (List.mem_cons_of_mem _ (List.mem_cons_of_mem _ hm))
            rw [hasMarker_open_nomatch r2 (takeInner_no_rbrace r2 hnb2),
              hasMarker_cons_ne '{' r2 (by decide)]
            exact ih r2 (by simp at hl; omega) hnb2
          · rw [hasMarker_dollar_no_lbrace (c2 :: r2)
              (by simp only [List.head?_cons, ne_eq, Option.some.injEq]; exact hc2)]
            exact ih (c2 :: r2) (by simp only [List.length_cons] at hl ⊢; omega)
              (fun hm => hnb (List.mem_cons_of_mem _ hm))
      · rw [hasMarker_cons_ne c rest hc]
        exact ih rest (by simp at hl; omega)
          (fun hm => hnb (List.mem_cons_of_mem _ hm))

theorem hasMarker_append_no_dollar (v s : List Char) (h : '$' ∉ v) :
    hasMarker (v ++ s) = hasMarker s := by
  induction v with
  | nil => simp
  | cons c v2 ih =>
    have hc : c ≠ '$' := by
      intro he
      exact h (he ▸ List.mem_cons_self c v2)
    rw [List.cons_append, hasMarker_cons_ne c _ hc]
    exact ih (fun hm => h (List.mem_cons_of_mem _ hm))

/-- The guard of the amended no-marker clause: every placeholder the
template matches renders to a non-empty replacement that contains
neither a dollar nor an opening brace. -/
def renderSafe (ctx : Ctx) (t : List Char) : Prop :=
  ∀ p ∈ placeholdersOf t,
    lookupPath (JValue.obj ctx) (String.mk p) ≠ none ∧
    (render ctx (String.mk p)).data ≠ [] ∧
    '$' ∉ (render ctx (String.mk p)).data ∧
    '{' ∉ (render ctx (String.mk p)).data

theorem substChars_head_not_lbrace (ctx : Ctx) (t : List Char)
    (hh : t.head? ≠ some '{') (hg : renderSafe ctx t) :
    (substChars ctx t).head? ≠ some '{' := by
  rcases t with _ | ⟨c, rest⟩
  · rw [substChars_nil]
    simp
  · by_cases hc : c = '$'
    · subst hc
      rcases rest with _ | ⟨c2, r2⟩
      · rw [substChars_dollar_no_lbrace ctx [] (by simp), substChars_nil]
        simp
      · by_cases hc2 : c2 = '{'
        · subst hc2
          rcases hti : takeInner r2 with _ | ⟨inner, rest2⟩
          · rw [substChars_open_nomatch ctx r2 hti]
            simp
          · rw [substChars_open_match ctx r2 inner rest2 hti]
            have hinner := hg inner
              (by rw [placeholdersOf_open_match r2 inner rest2 hti]
                  exact List.mem_cons_self _ _)
            rcases hv : (render ctx (String.mk inner)).data with _ | ⟨y, ys⟩
            · exact absurd hv hinner.2.1
            · rw [List.cons_append, List.head?_cons]
              simp only [ne_eq, Option.some.injEq]
              intro he
              subst he
              refine hinner.2.2.2 ?_
              rw [hv]
              exact List.mem_cons_self _ _
        · rw [substChars_dollar_no_lbrace ctx (c2 :: r2)
            (by simp only [List.head?_cons, ne_eq, Option.some.injEq]; exact hc2)]
          simp
    · rw [substChars_cons_ne ctx c rest hc]
      simpa using hh

theorem substChars_no_marker (ctx : Ctx) :
    ∀ (n : Nat) (t : List Char), t.length ≤ n → renderSafe ctx t →
      hasMarker (substChars ctx t) = false := by
  intro n
  induction n with
  | zero =>
    intro t hl _
    rw [Nat.le_zero, List.length_eq_zero] at hl
    subst hl
    rw [substChars_nil]
    exact hasMarker_nil
  | succ n ih =>
    intro t hl hg
    rcases t with _ | ⟨c, rest⟩
    · rw [substChars_nil]
      exact hasMarker_nil
    · by_cases hc : c = '$'
      · subst hc
        rcases rest with _ | ⟨c2, r2⟩
        · rw [substChars_dollar_no_lbrace ctx [] (by simp), substChars_nil,
            hasMarker_dollar_no_lbrace [] (by simp)]
          exact hasMarker_nil
        · by_cases hc2 : c2 = '{'
          · subst hc2
            rcases hti : takeInner r2 with _ | ⟨inner, rest2⟩
            · have hcases := takeInner_none_cases r2 hti
              rw [substChars_open_nomatch ctx r2 hti,
                substChars_cons_ne ctx '{' r2 (by decide)]
              rcases hcases with hnb | hhead
              · rw [substChars_no_rbrace ctx r2.length r2 (le_refl _) hnb,
                  hasMarker_open_nomatch r2 hti,
                  hasMarker_cons_ne '{' r2 (by decide)]
                exact hasMarker_no_rbrace r2.length r2 (le_refl _) hnb
              · rcases r2 with _ | ⟨c3, r3⟩
                · simp at hhead
                · simp only [List.head?_cons, Option.some.injEq] at hhead
                  subst hhead
                  rw [substChars_cons_ne ctx '}' r3 (by decide),
                    hasMarker_open_nomatch _ (takeInner_rbrace_head _),
                    hasMarker_cons_ne '{' _ (by decide),
                    hasMarker_cons_ne '}' _ (by decide)]
                  refine ih r3 (by simp at hl; omega) ?_
                  intro p hp
                  refine hg p ?_
                  rw [placeholdersOf_open_nomatch _ hti,
                    placeholdersOf_cons_ne '{' _ (by decide),
                    placeholdersOf_cons_ne '}' _ (by decide)]
                  exact hp
            · rw [substChars_open_match ctx r2 inner rest2 hti]
              have hinner := hg inner
                (by rw [placeholdersOf_open_match r2 inner rest2 hti]
                    exact List.mem_cons_self _ _)
              rw [hasMarker_append_no_dollar _ _ hinner.2.2.1]
              refine ih rest2 ?_ ?_
              · have := takeInner_length hti
                simp at hl
                omega
              · intro p hp
                refine hg p ?_
                rw [placeholdersOf_open_match r2 inner rest2 hti]
                exact List.mem_cons_of_mem _ hp
          · have hh2 : (c2 :: r2).head? ≠ some '{' := by
              simp only [List.head?_cons, ne_eq, Option.some.injEq]
              exact hc2
            have hg2 : renderSafe ctx (c2 :: r2) := by
              intro p hp
              refine hg p ?_
              rw [placeholdersOf_dollar_no_lbrace _ hh2]
              exact hp
            rw [substChars_dollar_no_lbrace ctx (c2 :: r2) hh2,
              hasMarker_dollar_no_lbrace _
                (substChars_head_not_lbrace ctx (c2 :: r2) hh2 hg2)]
            exact ih (c2 :: r2) (by simp only [List.length_cons] at hl ⊢; omega) hg2
      · rw [substChars_cons_ne ctx c rest hc, hasMarker_cons_ne c _ hc]
        refine ih rest (by simp at hl; omega) ?_
        intro p hp
        refine hg p ?_
        rw [placeholdersOf_cons_ne c rest hc]
        exact hp

theorem substChars_literal (ctx : Ctx) (lit rest : List Char)
    (h : '$' ∉ lit) :
    substChars ctx (lit ++ rest) = lit ++ substChars ctx rest := by
  induction lit with
  | nil => simp
  | cons c l ih =>
    have hc : c ≠ '$' := by
      intro he
      exact h (he ▸ List.mem_cons_self c l)
    rw [List.cons_append, substChars_cons_ne ctx c _ hc,
      ih (fun hm => h (List.mem_cons_of_mem _ hm)), List.cons_append]

/-- C7 (amended).  Substitution replaces each complete placeholder in a
single pass — the replacement is spliced in and scanning resumes after
the match on the original template only — literal dollar-free text is
copied verbatim, an unresolvable path renders as the empty string
without raising, and the output carries no unresolved placeholder
marker provided every matched placeholder resolves and renders to a
non-empty replacement containing neither a dollar nor an opening brace
(absent that proviso a replacement can itself leave or form a marker,
since substituted text is never re-scanned). -/
theorem substitute_spec :
    (∀ (ctx : Ctx) (inner rest : List Char), inner ≠ [] → '}' ∉ inner →
      substChars ctx ('$' :: '{' :: (inner ++ '}' :: rest)) =
        (render ctx (String.mk inner)).data ++ substChars ctx rest) ∧
    (∀ (ctx : Ctx) (lit rest : List Char), '$' ∉ lit →
      substChars ctx (lit ++ rest) = lit ++ substChars ctx rest) ∧
    (∀ (ctx : Ctx) (p : String), lookupPath (JValue.obj ctx) p = none →
      render ctx p = "") ∧
    (∀ (ctx : Ctx) (t : List Char), renderSafe ctx t →
      hasMarker (substChars ctx t) = false) :=
  ⟨fun ctx inner rest hne hnb =>
     substChars_open_match ctx _ inner rest (takeInner_concrete inner rest hne hnb),
   substChars_literal,
   fun ctx p h => by simp [render, h, pyOpt],
   fun ctx t hg => substChars_no_marker ctx t.length t (le_refl _) hg⟩

/-- The context of the C7 counterexample: "a" holds the text of a
placeholder referring to "b", and "b" resolves. -/
def ctxMarker : Ctx :=
  [("a", JValue.str (String.mk ['$', '{', 'b', '}'])), ("b", JValue.str "x")]

/-- The template of the C7 counterexample: the single placeholder for
"a". -/
def tmplMarker : List Char := ['$', '{', 'a', '}']

/-- C7 counterexample.  Every path the template references resolves in
the context, yet the single-pass substitution emits the value of "a" —
itself placeholder text — verbatim, leaving an unresolved marker in
the output: the claim's no-leftover-marker guarantee fails. -/
theorem substitute_marker_counterexample :
    (∀ p ∈ placeholdersOf tmplMarker,
      lookupPath (JValue.obj ctxMarker) (String.mk p) ≠ none) ∧
    substChars ctxMarker tmplMarker = ['$', '{', 'b', '}'] ∧
    hasMarker (substChars ctxMarker tmplMarker) = true := by
  have hti : takeInner ['a', '}'] = some (['a'], []) :=
    takeInner_concrete ['a'] [] (by decide) (by decide)
  have hplace : placeholdersOf tmplMarker = [['a']] := by
    rw [show tmplMarker = '$' :: '{' :: ['a', '}'] from rfl,
      placeholdersOf_open_match _ ['a'] [] hti, placeholdersOf_nil]
  have hsub : substChars ctxMarker tmplMarker = ['$', '{', 'b', '}'] := by
    rw [show tmplMarker = '$' :: '{' :: ['a', '}'] from rfl,
      substChars_open_match _ _ ['a'] [] hti, substChars_nil]
    rfl
  refine ⟨?_, hsub, ?_⟩
  · intro p hp
    rw [hplace] at hp
    simp only [List.mem_singleton] at hp
    subst hp
    intro hn
    rw [show lookupPath (JValue.obj ctxMarker) (String.mk ['a']) =
      some (JValue.str (String.mk ['$', '{', 'b', '}'])) from rfl] at hn
    exact Option.noConfusion hn
  · rw [hsub]
    exact hasMarker_open_match ['b', '}'] ['b'] []
      (takeInner_concrete ['b'] [] (by decide) (by decide))

/-- C7 witness: a template whose placeholder renders to a plain word
substitutes without leaving any marker. -/
theorem substitute_spec_witness :
    hasMarker (substChars [("n", JValue.str "World")]
      ['$', '{', 'n', '}', '!']) = false := by
  refine substitute_spec.2.2.2 [("n", JValue.str "World")]
    ['$', '{', 'n', '}', '!'] ?_
  have hti : takeInner ['n', '}', '!'] = some (['n'], ['!']) :=
    takeInner_concrete ['n'] ['!'] (by decide) (by decide)
  have hplace : placeholdersOf ['$', '{', 'n', '}', '!'] = [['n']] := by
    rw [show (['$', '{', 'n', '}', '!'] : List Char) =
      '$' :: '{' :: ['n', '}', '!'] from rfl,
      placeholdersOf_open_match _ ['n'] ['!'] hti,
      placeholdersOf_cons_ne '!' [] (by decide), placeholdersOf_nil]
  intro p hp
  rw [hplace] at hp
  simp only [List.mem_singleton] at hp
  subst hp
  have hr : render [("n", JValue.str "World")] (String.mk ['n']) = "World" := rfl
  refine ⟨?_, ?_, ?_, ?_⟩
  · intro hn
    rw [show lookupPath (JValue.obj [("n", JValue.str "World")])
      (String.mk ['n']) = some (JValue.str "World") from rfl] at hn
    exact Option.noConfusion hn
  · rw [hr]
    decide
  · rw [hr]
    decide
  · rw [hr]
    decide

/-- C8 witness: a false gate skips the step, leaving the context as the
empty pipeline would. -/
theorem executor_skips_gated_step_witness :
    runSteps (Env.mk [] (fun _ => none) []) [] [("score", JValue.num 0)]
      [Step.mk "query"
        (some [Condition.mk "score" Op.gt (JValue.num 1) [] []])
        none none none (some (StepMessage.mk "s" "u")) none] =
      Except.ok [("score", JValue.num 0)] := by
  rw [executor_skips_gated_step.1 (Env.mk [] (fun _ => none) [])
    [] [("score", JValue.num 0)]
    (Step.mk "query" (some [Condition.mk "score" Op.gt (JValue.num 1) [] []])
      none none none (some (StepMessage.mk "s" "u")) none) []
    (by
      simp [evalConditions, evalAll, evalSingle, lookupPath, splitOnChar,
        lookupKeys, getKey, applyOpStrRetry, applyOp, pyCompare]
      decide)]
  rfl

end Oai
